import Mathlib

set_option maxHeartbeats 1000000
set_option linter.unusedVariables false

namespace MacosDefaults

/-- Model of the plist value type (plist::Value): a tagged, recursively nested,
dynamically typed value. Scalar payloads are modelled by convenient Lean types
(`real` carries an opaque numeric payload; no theorem relies on floating-point
subtleties such as NaN). `null` is the spec's ValueModel Null leaf; variants of
plist::Value not constructed by the program (e.g. Uid) behave like the other
scalar leaves in every embedded code path, all of which treat non-array,
non-dictionary values by a wildcard arm. Arrays are ordered sequences;
dictionaries are insertion-ordered association lists whose keys are unique in
Rust (the IndexMap invariant, expressed here by the `wfV` predicate). -/
inductive Value where
  | null : Value
  | boolean : Bool → Value
  | integer : Int → Value
  | real : Int → Value
  | string : String → Value
  | date : Nat → Value
  | data : List Nat → Value
  | array : List Value → Value
  | dict : List (String × Value) → Value

/-- A value in an array that means "insert existing values here" (src/defaults.rs, const ELLIPSIS). -/
def ELLIPSIS : String := "..."

/-- A key in a dictionary or domain that means "delete any keys not specified here" (src/defaults.rs, const BANG). -/
def BANG : String := "!"

/-- The ellipsis marker as a plist value (plist::Value::from(ELLIPSIS)). -/
def ellipsisV : Value := .string ELLIPSIS

/-- First-match lookup in an insertion-ordered dictionary (plist::Dictionary::get, IndexMap::get; keys are unique in Rust). -/
def lookupD : List (String × Value) → String → Option Value
  | [], _ => none
  | (k, v) :: rest, key => if k = key then some v else lookupD rest key

/-- Key-membership test (plist::Dictionary::contains_key). -/
def containsKey : List (String × Value) → String → Bool
  | [], _ => false
  | (k, _) :: rest, key => if k = key then true else containsKey rest key

/-- Removal of the entry with the given key, preserving the order of the rest
(plist::Dictionary::remove; keys are unique in Rust, so removing every
occurrence coincides with removing the one entry). -/
def removeKey : List (String × Value) → String → List (String × Value)
  | [], _ => []
  | (k, v) :: rest, key => if k = key then removeKey rest key else (k, v) :: removeKey rest key

/-- Insertion into an insertion-ordered dictionary (plist::Dictionary::insert,
IndexMap semantics: an existing key keeps its position and gets the new value,
a fresh key is appended at the end). -/
def insertD : List (String × Value) → String → Value → List (String × Value)
  | [], key, v => [(key, v)]
  | (k, w) :: rest, key, v => if k = key then (k, v) :: rest else (k, w) :: insertD rest key v

/-- plist::Value::as_dictionary: Some for dictionaries, None otherwise. -/
def asDictionary : Value → Option (List (String × Value))
  | .dict d => some d
  | _ => none

/-- plist::Value::as_array: Some for arrays, None otherwise. -/
def asArray : Value → Option (List Value)
  | .array a => some a
  | _ => none

/-- Size bound for values reached through dictionary lookup, used for termination. -/
theorem lookupD_sizeOf {d : List (String × Value)} {k : String} {w : Value} (h : lookupD d k = some w) : sizeOf w < sizeOf d := by
  induction d with
  | nil => simp [lookupD] at h
  | cons p rest ih =>
    obtain ⟨k', v'⟩ := p
    simp only [lookupD] at h
    split at h
    · cases h
      simp
      omega
    · have := ih h
      simp
      omega

mutual

/-- Model of plist::Value equality (PartialEq): scalars compare componentwise,
arrays compare elementwise in order, and dictionaries compare as
order-insensitive maps (IndexMap equality: equal lengths and every entry of the
left-hand side maps its key to an equal value in the right-hand side). -/
def valueEqB : Value → Value → Bool
  | .null, .null => true
  | .boolean a, .boolean b => a = b
  | .integer a, .integer b => a = b
  | .real a, .real b => a = b
  | .string a, .string b => a = b
  | .date a, .date b => a = b
  | .data a, .data b => a = b
  | .array a, .array b => arrayEqB a b
  | .dict a, .dict b => Nat.beq a.length b.length && dictEntriesMatch a b
  | _, _ => false
termination_by a b => sizeOf a + sizeOf b
decreasing_by
  all_goals simp_wf
  all_goals omega

/-- Elementwise equality of arrays of values (Vec PartialEq). -/
def arrayEqB : List Value → List Value → Bool
  | [], [] => true
  | x :: xs, y :: ys => valueEqB x y && arrayEqB xs ys
  | _, _ => false
termination_by a b => sizeOf a + sizeOf b
decreasing_by
  all_goals simp_wf
  all_goals omega

/-- Every entry of the first dictionary maps its key to an equal value in the
second (one half of IndexMap equality; together with equal lengths and unique
keys this is the full order-insensitive map equality). -/
def dictEntriesMatch : List (String × Value) → List (String × Value) → Bool
  | [], _ => true
  | (k, v) :: rest, d2 =>
    (match h : lookupD d2 k with
     | some w => valueEqB v w
     | none => false) && dictEntriesMatch rest d2
termination_by a b => sizeOf a + sizeOf b
decreasing_by
  all_goals simp_wf
  all_goals first
  | omega
  | (have hlk := lookupD_sizeOf h; omega)

end

/-- Membership of a value in a list up to plist equality
(Vec::contains, which tests any element r with r == v). -/
def memEqB (l : List Value) (v : Value) : Bool :=
  l.any (fun r => valueEqB r v)

/-- One pass of the old-array splice inside replace_ellipsis_array: append each
old element in order unless an equal element is already present. -/
def pushOld (oldArray : List Value) (acc : List Value) : List Value :=
  oldArray.foldl (fun acc' oldEl => if memEqB acc' oldEl then acc' else acc' ++ [oldEl]) acc

/-- One step of the rebuild loop of replace_ellipsis_array: an ellipsis element
splices the old array in, any other element is appended unless already present. -/
def spliceStep (oldArray : List Value) (acc : List Value) (el : Value) : List Value :=
  if valueEqB el ellipsisV then pushOld oldArray acc
  else if memEqB acc el then acc else acc ++ [el]

/-- Embedding of replace_ellipsis_array (src/defaults.rs): on an array that
contains the ellipsis marker, rebuild it left to right with duplicates
suppressed and the old array spliced in at each marker; if the old value is
missing or not an array, just drop the first marker. Non-arrays are returned
unchanged. -/
def replace_ellipsis_array : Value → Option Value → Value
  | .array newArray, oldValue =>
    match newArray.findIdx? (fun x => valueEqB x ellipsisV) with
    | none => .array newArray
    | some position =>
      match oldValue.bind asArray with
      | some oldArray => .array (newArray.foldl (spliceStep oldArray) [])
      | none => .array (newArray.eraseIdx position)
  | v, _ => v

mutual

/-- Embedding of merge_value (src/defaults.rs): deep dictionary merge followed
by array ellipsis replacement. -/
def merge_value (newValue : Value) (oldValue : Option Value) : Value :=
  replace_ellipsis_array (deep_merge_dictionaries newValue oldValue) oldValue
termination_by (sizeOf newValue, 1)

/-- Embedding of deep_merge_dictionaries (src/defaults.rs): skip empty new
dictionaries entirely; drop the legacy ellipsis key; when the old value is a
dictionary, recursively merge each retained entry against the old entry of the
same key, then either stop at a bang key (removing it, keeping exactly the new
keys) or copy over every old entry whose key is absent. When the old value is
not a dictionary the (ellipsis-stripped) new dictionary is kept as is. -/
def deep_merge_dictionaries : Value → Option Value → Value
  | .dict newDict, oldValue =>
    if newDict.isEmpty then .dict newDict
    else
      match oldValue.bind asDictionary with
      | some oldDict =>
        let merged := mergeEntries newDict oldDict
        if containsKey merged BANG then .dict (removeKey merged BANG)
        else .dict (merged ++ oldDict.filter (fun p => !containsKey merged p.1))
      | none => .dict (removeKey newDict ELLIPSIS)
  | v, _ => v
termination_by v _ => (sizeOf v, 0)

/-- The per-entry loop of deep_merge_dictionaries: entries with the legacy
ellipsis key are dropped (the Rust code removes that key before the loop, which
yields the same list), every other entry's value is merged against the old
entry of the same key. -/
def mergeEntries : List (String × Value) → List (String × Value) → List (String × Value)
  | [], _ => []
  | (k, v) :: rest, oldDict =>
    if k = ELLIPSIS then mergeEntries rest oldDict
    else (k, merge_value v (lookupD oldDict k)) :: mergeEntries rest oldDict
termination_by l _ => (sizeOf l, 2)
decreasing_by
  all_goals simp_wf
  all_goals omega

end

/-- Errors surfaced by the embedded apply loop (DefaultsError::NotADictionary,
raised when the loaded plist value is not a dictionary). -/
inductive DError where
  | notADictionary : DError
deriving DecidableEq

/-- Observable outcome of write_defaults_values: the returned changed flag, the
value written to the preference file (none when no write happened), and whether
a backup copy of the pre-existing file was made before the write. -/
structure ApplyOutcome where
  changed : Bool
  persisted : Option Value
  backedUp : Bool

/-- The per-key loop of write_defaults_values (src/defaults.rs): look the key up
in the current plist dictionary (an error if the plist value is not a
dictionary), merge the new value against it, skip the key when an old value
exists and equals the merged value under plist equality, otherwise insert the
merged value and record that something changed. -/
def applyLoop : List (String × Value) → Value → Bool → Except DError (Value × Bool)
  | [], plistValue, changed => .ok (plistValue, changed)
  | (key, newValue) :: rest, plistValue, changed =>
    match asDictionary plistValue with
    | none => .error .notADictionary
    | some d =>
      let merged := merge_value newValue (lookupD d key)
      match lookupD d key with
      | some oldValue =>
        if valueEqB oldValue merged then applyLoop rest plistValue changed
        else applyLoop rest (.dict (insertD d key merged)) true
      | none => applyLoop rest (.dict (insertD d key merged)) true

/-- Embedding of write_defaults_values (src/defaults.rs): load the stored value
(an empty dictionary when the preference file does not exist), honour a
top-level bang key by wiping the in-memory dictionary and dropping that key,
run the per-key merge loop, and only when at least one key changed back up a
pre-existing file and write the result. The filesystem write itself is modelled
as succeeding; the preference map is a key/value list in HashMap iteration
order, with unique keys. -/
def write_defaults_values (prefs : List (String × Value)) (stored : Option Value) : Except DError ApplyOutcome :=
  let plistPathExists := stored.isSome
  let plistValue0 := stored.getD (.dict [])
  let wipe := containsKey prefs BANG
  let plistValue1 := if wipe then Value.dict [] else plistValue0
  let prefs1 := if wipe then removeKey prefs BANG else prefs
  match applyLoop prefs1 plistValue1 false with
  | .error e => .error e
  | .ok (finalValue, changed) =>
    if changed then .ok ⟨true, some finalValue, plistPathExists⟩
    else .ok ⟨false, none, false⟩

/-- Read failure of the encoding probe (DefaultsError::FileRead): reading the
magic fails when the file holds fewer than 8 bytes. -/
inductive FileError where
  | fileRead : FileError
deriving DecidableEq

/-- The binary plist magic, the bytes of b"bplist00". -/
def bplistMagic : List Nat := [0x62, 0x70, 0x6c, 0x69, 0x73, 0x74, 0x30, 0x30]

/-- Embedding of is_binary (src/defaults.rs): read exactly the first 8 bytes of
the file (a read error when it is shorter) and compare them with the binary
plist magic. The file is modelled by its byte contents. -/
def is_binary (contents : List Nat) : Except FileError Bool :=
  if contents.length < 8 then .error .fileRead
  else .ok (decide (contents.take 8 = bplistMagic))

/-- The encoding decision of write_plist (src/defaults.rs): binary when the
file did not exist before the write, otherwise whatever is_binary reports on
the existing file, with a read error propagated. -/
def should_write_binary (plistPathExists : Bool) (contents : List Nat) : Except FileError Bool :=
  if !plistPathExists then .ok true else is_binary contents

/-- Kinds of I/O errors as in std::io::ErrorKind; only the distinction between
the permission class and the rest matters here. -/
inductive IOErrorKind where
  | permissionDenied : IOErrorKind
  | notFound : IOErrorKind
  | storageFull : IOErrorKind
  | otherError : IOErrorKind
deriving DecidableEq

/-- Model of plist::Error as seen by the write path: it either wraps an
underlying I/O error or is a non-I/O serialization failure. -/
inductive PlistError where
  | io : IOErrorKind → PlistError
  | serialization : PlistError
deriving DecidableEq

/-- plist::Error::into_io per its API contract: yields the underlying I/O error
when the error wraps one and gives the error back otherwise. -/
def into_io : PlistError → Except PlistError IOErrorKind
  | .io k => .ok k
  | e => .error e

/-- What the write path does after the direct serialize-and-write attempt. -/
inductive WritePath where
  | direct : WritePath
  | sudoTee : WritePath
  | failed : WritePath
deriving DecidableEq

/-- The error dispatch of write_plist (src/defaults.rs): a successful direct
write is final; a failure that converts to an underlying I/O error is retried
by piping the serialized bytes through the privileged sudo tee helper; any
other failure is surfaced immediately as a plist write error. -/
def write_plist_dispatch (writeResult : Except PlistError Unit) : WritePath :=
  match writeResult with
  | .ok _ => .direct
  | .error e =>
    match into_io e with
    | .ok _ => .sudoTee
    | .error _ => .failed

mutual

/-- No merge-directive markers anywhere in the value: no array element equal to
the ellipsis marker, no ellipsis dictionary key, and no bang dictionary key,
recursively through arrays and dictionaries. -/
def noMarkers : Value → Bool
  | .array xs => noMarkersArr xs
  | .dict d => !containsKey d BANG && !containsKey d ELLIPSIS && noMarkersDict d
  | _ => true
termination_by v => sizeOf v

/-- Marker freedom for the elements of an array. -/
def noMarkersArr : List Value → Bool
  | [] => true
  | x :: xs => !valueEqB x ellipsisV && noMarkers x && noMarkersArr xs
termination_by l => sizeOf l

/-- Marker freedom for the values of a dictionary. -/
def noMarkersDict : List (String × Value) → Bool
  | [] => true
  | (_, v) :: rest => noMarkers v && noMarkersDict rest
termination_by l => sizeOf l

end

/-- Marker freedom for an optional old value. -/
def noMarkersO : Option Value → Bool
  | none => true
  | some v => noMarkers v

/-- Unique keys in an association list, the IndexMap invariant. -/
def keysNodup : List (String × Value) → Bool
  | [] => true
  | (k, _) :: rest => !containsKey rest k && keysNodup rest

mutual

/-- Well-formedness: every dictionary nested in the value has unique keys.
Every value built by the Rust plist library satisfies this. -/
def wfV : Value → Bool
  | .array xs => wfArr xs
  | .dict d => keysNodup d && wfDict d
  | _ => true
termination_by v => sizeOf v

/-- Well-formedness for the elements of an array. -/
def wfArr : List Value → Bool
  | [] => true
  | x :: xs => wfV x && wfArr xs
termination_by l => sizeOf l

/-- Well-formedness for the values of a dictionary. -/
def wfDict : List (String × Value) → Bool
  | [] => true
  | (_, v) :: rest => wfV v && wfDict rest
termination_by l => sizeOf l

end

/-- Structural induction principle for the nested value type, with membership
hypotheses for array elements and dictionary values. -/
theorem Value.inductionOn (P : Value → Prop)
    (hnull : P .null) (hbool : ∀ b, P (.boolean b)) (hint : ∀ i, P (.integer i))
    (hreal : ∀ r, P (.real r)) (hstr : ∀ s, P (.string s)) (hdate : ∀ n, P (.date n))
    (hdata : ∀ l, P (.data l))
    (harr : ∀ xs, (∀ x, x ∈ xs → P x) → P (.array xs))
    (hdict : ∀ d, (∀ k v, (k, v) ∈ d → P v) → P (.dict d)) :
    ∀ v, P v
  | .null => hnull
  | .boolean b => hbool b
  | .integer i => hint i
  | .real r => hreal r
  | .string s => hstr s
  | .date n => hdate n
  | .data l => hdata l
  | .array xs => harr xs (fun x hx =>
      Value.inductionOn P hnull hbool hint hreal hstr hdate hdata harr hdict x)
  | .dict d => hdict d (fun k v hv =>
      Value.inductionOn P hnull hbool hint hreal hstr hdate hdata harr hdict v)
termination_by v => sizeOf v
decreasing_by
  · have := List.sizeOf_lt_of_mem hx
    simp only [Value.array.sizeOf_spec]
    omega
  · have h1 := List.sizeOf_lt_of_mem hv
    have h2 : sizeOf v < sizeOf (k, v) := by simp
    simp only [Value.dict.sizeOf_spec]
    omega

theorem containsKey_of_mem {d : List (String × Value)} {p : String × Value} (h : p ∈ d) : containsKey d p.1 = true := by
  induction d with
  | nil => simp at h
  | cons q rest ih =>
    obtain ⟨k', v'⟩ := q
    simp only [containsKey]
    rcases List.mem_cons.mp h with h1 | h1
    · subst h1
      simp
    · split
      · rfl
      · exact ih h1

theorem containsKey_eq_false_iff {d : List (String × Value)} {key : String} :
    containsKey d key = false ↔ ∀ p ∈ d, p.1 ≠ key := by
  induction d with
  | nil => simp [containsKey]
  | cons q rest ih =>
    obtain ⟨k', v'⟩ := q
    simp only [containsKey]
    constructor
    · intro h
      split at h
      · cases h
      · intro p hp
        rcases List.mem_cons.mp hp with h1 | h1
        · subst h1
          simpa using (by assumption : ¬ k' = key)
        · exact ih.mp h p h1
    · intro h
      have hk : k' ≠ key := by
        have := h (k', v') (List.mem_cons_self _ _)
        simpa using this
      rw [if_neg hk]
      exact ih.mpr (fun p hp => h p (List.mem_cons_of_mem _ hp))

theorem lookupD_mem {d : List (String × Value)} {key : String} {w : Value} (h : lookupD d key = some w) : (key, w) ∈ d := by
  induction d with
  | nil => simp [lookupD] at h
  | cons q rest ih =>
    obtain ⟨k', v'⟩ := q
    simp only [lookupD] at h
    split at h
    · cases h
      subst (by assumption : k' = key)
      exact List.mem_cons_self _ _
    · exact List.mem_cons_of_mem _ (ih h)

theorem lookupD_eq_none_of_not_contains {d : List (String × Value)} {key : String} (h : containsKey d key = false) : lookupD d key = none := by
  induction d with
  | nil => simp [lookupD]
  | cons q rest ih =>
    obtain ⟨k', v'⟩ := q
    simp only [containsKey] at h
    simp only [lookupD]
    split at h
    · cases h
    · rw [if_neg (by assumption)]
      exact ih h

theorem lookupD_of_mem_nodup {d : List (String × Value)} {key : String} {w : Value}
    (hnd : keysNodup d = true) (h : (key, w) ∈ d) : lookupD d key = some w := by
  induction d with
  | nil => simp at h
  | cons q rest ih =>
    obtain ⟨k', v'⟩ := q
    simp only [keysNodup, Bool.and_eq_true, Bool.not_eq_true'] at hnd
    simp only [lookupD]
    rcases List.mem_cons.mp h with h1 | h1
    · obtain ⟨h1a, h1b⟩ := Prod.mk.injEq .. ▸ h1
      subst h1a; subst h1b
      simp
    · have hk : k' ≠ key := by
        intro hcontra
        subst hcontra
        have := containsKey_of_mem h1
        simp [this] at hnd
      rw [if_neg hk]
      exact ih hnd.2 h1

theorem removeKey_of_not_contains {d : List (String × Value)} {key : String} (h : containsKey d key = false) : removeKey d key = d := by
  induction d with
  | nil => simp [removeKey]
  | cons q rest ih =>
    obtain ⟨k', v'⟩ := q
    simp only [containsKey] at h
    simp only [removeKey]
    split at h
    · cases h
    · rw [if_neg (by assumption)]
      rw [ih h]

theorem lookupD_append {l1 l2 : List (String × Value)} {key : String} :
    lookupD (l1 ++ l2) key = ((lookupD l1 key).rec (lookupD l2 key) (fun v => some v) : Option Value) := by
  induction l1 with
  | nil => simp [lookupD]
  | cons q rest ih =>
    obtain ⟨k', v'⟩ := q
    simp only [List.cons_append, lookupD]
    split
    · rfl
    · exact ih

/-- C5: merging an empty new dictionary against any old value yields the empty
dictionary unchanged; no old keys are pulled in and the merge step is skipped
for this node and all of its descendants. -/
theorem empty_new_dict_law (old : Option Value) : merge_value (.dict []) old = .dict [] := by
  simp [merge_value, deep_merge_dictionaries, replace_ellipsis_array]

/-- C10: a new value that is neither an array nor a dictionary is returned by
the merge unchanged, whatever the old value is and whatever its type: scalars
always replace the old value wholesale. -/
theorem scalar_overwrite (old : Option Value) :
    merge_value .null old = .null
    ∧ (∀ b, merge_value (.boolean b) old = .boolean b)
    ∧ (∀ i, merge_value (.integer i) old = .integer i)
    ∧ (∀ r, merge_value (.real r) old = .real r)
    ∧ (∀ s, merge_value (.string s) old = .string s)
    ∧ (∀ n, merge_value (.date n) old = .date n)
    ∧ (∀ l, merge_value (.data l) old = .data l) := by
  refine ⟨?_, ?_, ?_, ?_, ?_, ?_, ?_⟩ <;> (try intro _) <;>
    simp [merge_value, deep_merge_dictionaries, replace_ellipsis_array]

/-- C9: a preference map holding only the top-level bang key produces
changed = false, no write, and no backup, whatever value is stored: the
requested domain wipe is never persisted. -/
theorem bang_only_wipe_dropped (x : Value) (stored : Option Value) :
    write_defaults_values [(BANG, x)] stored = .ok ⟨false, none, false⟩ := by
  simp [write_defaults_values, containsKey, removeKey, applyLoop]

/-- C6 counterexample: a direct-write failure wrapping a non-permission I/O
error (file not found) is escalated to the privileged helper, although the
claim requires every non-permission failure to be surfaced immediately without
escalation. -/
theorem escalation_policy_counterexample :
    write_plist_dispatch (.error (.io .notFound)) = .sudoTee
    ∧ IOErrorKind.notFound ≠ IOErrorKind.permissionDenied := by
  exact ⟨rfl, by decide⟩

/-- C6 amended: the privileged helper is invoked if and only if the direct
write fails with an error that wraps an underlying I/O error, of any kind;
failures that are not I/O-backed are surfaced immediately without escalation. -/
theorem escalation_iff_io_error (r : Except PlistError Unit) :
    write_plist_dispatch r = .sudoTee ↔ ∃ k, r = .error (.io k) := by
  cases r with
  | ok u => simp [write_plist_dispatch]
  | error e =>
    cases e with
    | io k => simp [write_plist_dispatch, into_io]
    | serialization => simp [write_plist_dispatch, into_io]

/-- C1 counterexample: merging a new dictionary holding a bang key and the key
k mapped to a nested dictionary against an old dictionary does not yield
exactly that value under k, because the per-key recursion merges the nested
dictionary against the old entry before the bang key stops the merge. -/
theorem dict_bang_law_counterexample :
    merge_value (.dict [(BANG, .string ""), ("k", .dict [("a", .integer 1)])])
        (some (.dict [("k", .dict [("b", .integer 2)]), ("z", .integer 9)]))
      ≠ .dict [("k", .dict [("a", .integer 1)])] := by
  simp [merge_value, deep_merge_dictionaries, mergeEntries, replace_ellipsis_array,
    containsKey, removeKey, lookupD, asDictionary, BANG, ELLIPSIS]

/-- C1 amended: merging a new dictionary consisting of a bang entry and one
other key k (distinct from both reserved markers) against any old dictionary
yields a dictionary with exactly the key k, whose value is the new value for k
merged recursively against the old entry at k (hence the new value itself
whenever it is a scalar); the bang key is removed and no old keys are copied
in. -/
theorem dict_bang_law_amended (k : String) (b v : Value) (old : List (String × Value))
    (hk1 : k ≠ BANG) (hk2 : k ≠ ELLIPSIS) :
    merge_value (.dict [(BANG, b), (k, v)]) (some (.dict old))
      = .dict [(k, merge_value v (lookupD old k))] := by
  have hk1' : k ≠ "!" := hk1
  have hk2' : k ≠ "..." := hk2
  simp only [merge_value, deep_merge_dictionaries]
  simp [mergeEntries, containsKey, removeKey, replace_ellipsis_array, asDictionary,
    hk1', hk2', BANG, ELLIPSIS]
  rw [merge_value, replace_ellipsis_array.eq_def]

/-- C8 counterexample: an existing file of fewer than 8 bytes makes the write
path fail with a read error instead of serializing as text/XML, although the
file's first 8 bytes do not match the binary magic and the claim then requires
text/XML serialization. -/
theorem encoding_short_file_counterexample :
    should_write_binary true [1, 2, 3] = .error .fileRead
    ∧ [1, 2, 3].take 8 ≠ bplistMagic
    ∧ should_write_binary true [1, 2, 3] ≠ .ok false := by
  refine ⟨rfl, by decide, by simp [should_write_binary, is_binary]⟩

/-- C8 amended: the write path serializes in binary iff the target file did not
exist before the write or its first 8 bytes exist and match the binary plist
magic; it serializes as text/XML iff the file existed with at least 8 bytes
whose first 8 do not match the magic; an existing file shorter than 8 bytes
instead fails the write with a read error. -/
theorem encoding_preservation_amended (ex : Bool) (c : List Nat) :
    (should_write_binary ex c = .ok true ↔ (ex = false ∨ c.take 8 = bplistMagic))
    ∧ (should_write_binary ex c = .ok false ↔ (ex = true ∧ 8 ≤ c.length ∧ c.take 8 ≠ bplistMagic))
    ∧ (should_write_binary ex c = .error .fileRead ↔ (ex = true ∧ c.length < 8)) := by
  have hlen : c.take 8 = bplistMagic → 8 ≤ c.length := by
    intro h
    have hcong := congrArg List.length h
    simp [bplistMagic, List.length_take] at hcong
    omega
  cases ex with
  | false => simp [should_write_binary]
  | true =>
    by_cases h : c.length < 8
    · refine ⟨?_, ?_, ?_⟩
      · simp [should_write_binary, is_binary, h]
        exact fun hc => absurd (hlen hc) (by omega)
      · simp [should_write_binary, is_binary, h]
      · simp [should_write_binary, is_binary, h]
    · refine ⟨?_, ?_, ?_⟩
      · simp [should_write_binary, is_binary, h]
      · simp [should_write_binary, is_binary, h]
        intro _
        omega
      · simp [should_write_binary, is_binary, h]

/-- Witness for the amended C1 theorem at a concrete input. -/
theorem dict_bang_law_amended_witness :
    merge_value (.dict [(BANG, .boolean true), ("k", .integer 7)])
        (some (.dict [("k", .integer 5), ("z", .integer 9)]))
      = .dict [("k", merge_value (.integer 7) (lookupD [("k", .integer 5), ("z", .integer 9)] "k"))] :=
  dict_bang_law_amended "k" (.boolean true) (.integer 7)
    [("k", .integer 5), ("z", .integer 9)] (by decide) (by decide)

theorem wfArr_mem {xs : List Value} {x : Value} (h : wfArr xs = true) (hx : x ∈ xs) : wfV x = true := by
  induction xs with
  | nil => simp at hx
  | cons y rest ih =>
    simp only [wfArr, Bool.and_eq_true] at h
    rcases List.mem_cons.mp hx with h1 | h1
    · subst h1
      exact h.1
    · exact ih h.2 h1

theorem wfDict_mem {d : List (String × Value)} {k : String} {v : Value} (h : wfDict d = true) (hm : (k, v) ∈ d) : wfV v = true := by
  induction d with
  | nil => simp at hm
  | cons p rest ih =>
    obtain ⟨k', v'⟩ := p
    simp only [wfDict, Bool.and_eq_true] at h
    rcases List.mem_cons.mp hm with h1 | h1
    · cases h1
      exact h.1
    · exact ih h.2 h1

theorem noMarkersArr_mem {xs : List Value} {x : Value} (h : noMarkersArr xs = true) (hx : x ∈ xs) :
    valueEqB x ellipsisV = false ∧ noMarkers x = true := by
  induction xs with
  | nil => simp at hx
  | cons y rest ih =>
    simp only [noMarkersArr, Bool.and_eq_true, Bool.not_eq_true'] at h
    rcases List.mem_cons.mp hx with h1 | h1
    · subst h1
      exact ⟨h.1.1, h.1.2⟩
    · exact ih h.2 h1

theorem noMarkersDict_mem {d : List (String × Value)} {k : String} {v : Value} (h : noMarkersDict d = true) (hm : (k, v) ∈ d) : noMarkers v = true := by
  induction d with
  | nil => simp at hm
  | cons p rest ih =>
    obtain ⟨k', v'⟩ := p
    simp only [noMarkersDict, Bool.and_eq_true] at h
    rcases List.mem_cons.mp hm with h1 | h1
    · cases h1
      exact h.1
    · exact ih h.2 h1

theorem arrayEqB_self {xs : List Value} (h : ∀ x ∈ xs, valueEqB x x = true) : arrayEqB xs xs = true := by
  induction xs with
  | nil => simp [arrayEqB]
  | cons x rest ih =>
    simp only [arrayEqB, Bool.and_eq_true]
    exact ⟨h x (List.mem_cons_self _ _), ih (fun y hy => h y (List.mem_cons_of_mem _ hy))⟩

theorem dictEntriesMatch_of {sub d : List (String × Value)}
    (h : ∀ p ∈ sub, ∃ w, lookupD d p.1 = some w ∧ valueEqB p.2 w = true) :
    dictEntriesMatch sub d = true := by
  induction sub with
  | nil => simp [dictEntriesMatch]
  | cons p rest ih =>
    obtain ⟨k, v⟩ := p
    obtain ⟨w, hw, hvw⟩ := h (k, v) (List.mem_cons_self _ _)
    simp only [dictEntriesMatch, Bool.and_eq_true]
    constructor
    · rw [hw]
      exact hvw
    · exact ih (fun q hq => h q (List.mem_cons_of_mem _ hq))

/-- Plist equality is reflexive on well-formed values (every value produced by
the Rust plist library is well-formed). -/
theorem valueEqB_refl (v : Value) : wfV v = true → valueEqB v v = true := by
  induction v using Value.inductionOn with
  | hnull => intro _; simp [valueEqB]
  | hbool b => intro _; simp [valueEqB]
  | hint i => intro _; simp [valueEqB]
  | hreal r => intro _; simp [valueEqB]
  | hstr s => intro _; simp [valueEqB]
  | hdate n => intro _; simp [valueEqB]
  | hdata l => intro _; simp [valueEqB]
  | harr xs ih =>
    intro hwf
    simp only [wfV] at hwf
    simp only [valueEqB]
    exact arrayEqB_self (fun x hx => ih x hx (wfArr_mem hwf hx))
  | hdict d ih =>
    intro hwf
    simp only [wfV, Bool.and_eq_true] at hwf
    simp only [valueEqB, Bool.and_eq_true]
    refine ⟨Nat.beq_refl _, ?_⟩
    apply dictEntriesMatch_of
    intro p hp
    exact ⟨p.2, lookupD_of_mem_nodup hwf.1 hp, ih p.1 p.2 hp (wfDict_mem hwf.2 hp)⟩

/-- C2: the ellipsis array law. Merging the new array [a, "...", b] against the
old array [x, a, y] yields [a, x, y, b] when the listed elements are pairwise
distinct under plist equality (first occurrence wins, duplicates suppressed,
old elements spliced in their original order at the marker position), and
merging the same new array against a missing old value yields [a, b]. -/
theorem ellipsis_array_law (a b x y : Value)
    (hwa : wfV a = true)
    (ha : valueEqB a ellipsisV = false) (hb : valueEqB b ellipsisV = false)
    (hax : valueEqB a x = false) (hay : valueEqB a y = false)
    (hxy : valueEqB x y = false)
    (hab : valueEqB a b = false) (hxb : valueEqB x b = false) (hyb : valueEqB y b = false) :
    merge_value (.array [a, ellipsisV, b]) (some (.array [x, a, y])) = .array [a, x, y, b]
    ∧ merge_value (.array [a, ellipsisV, b]) none = .array [a, b] := by
  have he : valueEqB ellipsisV ellipsisV = true := by simp [valueEqB, ellipsisV]
  have haa : valueEqB a a = true := valueEqB_refl a hwa
  constructor
  · simp [merge_value, deep_merge_dictionaries, replace_ellipsis_array, asArray,
      List.findIdx?, ha, hb, he, haa, hax, hay, hxy, hab, hxb, hyb,
      spliceStep, pushOld, memEqB]
  · simp [merge_value, deep_merge_dictionaries, replace_ellipsis_array, asArray,
      List.findIdx?, ha, hb, he]

/-- The apply loop leaves the dictionary untouched and reports no change when
every preference key already stores exactly its merged value. -/
theorem applyLoop_no_change (prefs : List (String × Value)) (d : List (String × Value))
    (hwf : wfV (.dict d) = true)
    (h : ∀ k v, (k, v) ∈ prefs → ∃ o, lookupD d k = some o ∧ merge_value v (some o) = o) :
    applyLoop prefs (.dict d) false = .ok (.dict d, false) := by
  induction prefs with
  | nil => simp [applyLoop]
  | cons p rest ih =>
    obtain ⟨key, newValue⟩ := p
    obtain ⟨o, ho, hmerge⟩ := h key newValue (List.mem_cons_self _ _)
    have hwfd : keysNodup d = true ∧ wfDict d = true := by
      simpa [wfV, Bool.and_eq_true] using hwf
    have hwfo : wfV o = true := wfDict_mem hwfd.2 (lookupD_mem ho)
    simp only [applyLoop, asDictionary, ho, hmerge, valueEqB_refl o hwfo, if_true]
    exact ih (fun k v hm => h k v (List.mem_cons_of_mem _ hm))

/-- C7: when every per-key merge result equals, by full structural equality,
the value already stored under that key (and the preference map holds no
top-level bang key), apply reports changed = false, performs no write, and
creates no backup: the on-disk store is left completely untouched. -/
theorem noop_apply_frame (prefs : List (String × Value)) (d : List (String × Value))
    (hb : containsKey prefs BANG = false)
    (hwf : wfV (.dict d) = true)
    (h : ∀ k v, (k, v) ∈ prefs → ∃ o, lookupD d k = some o ∧ merge_value v (some o) = o) :
    write_defaults_values prefs (some (.dict d)) = .ok ⟨false, none, false⟩ := by
  simp only [write_defaults_values, hb, Bool.false_eq_true, if_false, Option.getD_some]
  rw [applyLoop_no_change prefs d hwf h]
  simp

/-- Witness for the no-op apply frame at a concrete store and preference map. -/
theorem noop_apply_frame_witness :
    write_defaults_values [("k", .integer 1)] (some (.dict [("k", .integer 1)]))
      = .ok ⟨false, none, false⟩ :=
  noop_apply_frame [("k", .integer 1)] [("k", .integer 1)]
    (by simp [containsKey, BANG])
    (by simp [wfV, keysNodup, wfDict, containsKey])
    (by
      intro k v hm
      simp only [List.mem_singleton] at hm
      cases hm
      exact ⟨.integer 1, by simp [lookupD],
        by simp [merge_value, deep_merge_dictionaries, replace_ellipsis_array]⟩)

/-- Witness for the ellipsis array law at concrete integer elements. -/
theorem ellipsis_array_law_witness :
    merge_value (.array [.integer 1, ellipsisV, .integer 2])
        (some (.array [.integer 3, .integer 1, .integer 4]))
      = .array [.integer 1, .integer 3, .integer 4, .integer 2]
    ∧ merge_value (.array [.integer 1, ellipsisV, .integer 2]) none
      = .array [.integer 1, .integer 2] :=
  ellipsis_array_law (.integer 1) (.integer 2) (.integer 3) (.integer 4)
    (by simp [wfV]) (by simp [valueEqB, ellipsisV]) (by simp [valueEqB, ellipsisV])
    (by simp [valueEqB]) (by simp [valueEqB]) (by simp [valueEqB])
    (by simp [valueEqB]) (by simp [valueEqB]) (by simp [valueEqB])

theorem findIdx_none_of_noMarkersArr {xs : List Value} (h : noMarkersArr xs = true) :
    xs.findIdx? (fun x => valueEqB x ellipsisV) = none := by
  induction xs with
  | nil => simp
  | cons x rest ih =>
    simp only [noMarkersArr, Bool.and_eq_true, Bool.not_eq_true'] at h
    rw [List.findIdx?_cons]
    simp [h.1.1, ih h.2]

theorem noMarkers_dict_parts {d : List (String × Value)} (h : noMarkers (.dict d) = true) :
    containsKey d BANG = false ∧ containsKey d ELLIPSIS = false ∧ noMarkersDict d = true := by
  simpa [noMarkers, Bool.and_eq_true, Bool.not_eq_true', and_assoc] using h

theorem bind_asDictionary_eq_some {old : Option Value} {od : List (String × Value)}
    (h : old.bind asDictionary = some od) : old = some (.dict od) := by
  cases old with
  | none => simp at h
  | some v =>
    rcases v with _ | b | i | r | s | n | l | xs | dd <;> simp [asDictionary] at h
    subst h
    rfl

theorem mergeEntries_eq_map {d od : List (String × Value)} (h : containsKey d ELLIPSIS = false) :
    mergeEntries d od = d.map (fun p => (p.1, merge_value p.2 (lookupD od p.1))) := by
  induction d with
  | nil => simp [mergeEntries]
  | cons p rest ih =>
    obtain ⟨k, v⟩ := p
    simp only [containsKey] at h
    split at h
    · cases h
    · simp only [mergeEntries, List.map_cons]
      rw [if_neg (by assumption)]
      rw [ih h]

theorem containsKey_map {d : List (String × Value)} {key : String} (g : String × Value → Value) :
    containsKey (d.map (fun p => (p.1, g p))) key = containsKey d key := by
  induction d with
  | nil => simp
  | cons p rest ih =>
    obtain ⟨k, v⟩ := p
    simp only [List.map_cons, containsKey]
    by_cases hk : k = key <;> simp [hk, ih]

theorem lookupD_map_of_mem_nodup {d : List (String × Value)} {k : String} {v : Value}
    (g : String × Value → Value) (hnd : keysNodup d = true) (hm : (k, v) ∈ d) :
    lookupD (d.map (fun p => (p.1, g p))) k = some (g (k, v)) := by
  induction d with
  | nil => simp at hm
  | cons p rest ih =>
    obtain ⟨k0, v0⟩ := p
    simp only [keysNodup, Bool.and_eq_true, Bool.not_eq_true'] at hnd
    simp only [List.map_cons, lookupD]
    rcases List.mem_cons.mp hm with h1 | h1
    · cases h1
      simp
    · by_cases hk : k0 = k
      · exfalso
        subst hk
        have hck := containsKey_of_mem h1
        simp only [hnd.1] at hck
        cases hck
      · rw [if_neg hk]
        exact ih hnd.2 h1

theorem lookupD_append_some {l1 l2 : List (String × Value)} {k : String} {w : Value}
    (h : lookupD l1 k = some w) : lookupD (l1 ++ l2) k = some w := by
  induction l1 with
  | nil => simp [lookupD] at h
  | cons p rest ih =>
    obtain ⟨k0, v0⟩ := p
    simp only [lookupD] at h
    simp only [List.cons_append, lookupD]
    split at h
    · rw [if_pos (by assumption)]
      exact h
    · rw [if_neg (by assumption)]
      exact ih h

theorem containsKey_append {l1 l2 : List (String × Value)} {key : String} :
    containsKey (l1 ++ l2) key = (containsKey l1 key || containsKey l2 key) := by
  induction l1 with
  | nil => simp [containsKey]
  | cons p rest ih =>
    obtain ⟨k0, v0⟩ := p
    simp only [List.cons_append, containsKey]
    by_cases hk : k0 = key <;> simp [hk, ih]

theorem noMarkersDict_iff {d : List (String × Value)} :
    noMarkersDict d = true ↔ ∀ p ∈ d, noMarkers p.2 = true := by
  induction d with
  | nil => simp [noMarkersDict]
  | cons p rest ih =>
    obtain ⟨k, v⟩ := p
    simp only [noMarkersDict, Bool.and_eq_true, ih]
    constructor
    · rintro ⟨h1, h2⟩ q hq
      rcases List.mem_cons.mp hq with rfl | hq'
      · exact h1
      · exact h2 q hq'
    · intro h
      exact ⟨h (k, v) (List.mem_cons_self _ _), fun q hq => h q (List.mem_cons_of_mem _ hq)⟩

theorem containsKey_filter_eq_false {od : List (String × Value)} {key : String} (pred : String × Value → Bool)
    (h : containsKey od key = false) : containsKey (od.filter pred) key = false := by
  rw [containsKey_eq_false_iff] at h ⊢
  exact fun p hp => h p (List.mem_of_mem_filter hp)

theorem filter_self_keys_nil (l : List (String × Value)) :
    l.filter (fun p => !containsKey l p.1) = [] := by
  rw [List.filter_eq_nil_iff]
  intro p hp
  simp [containsKey_of_mem hp]

theorem isEmpty_false_of_ne_nil {d : List (String × Value)} (he : d ≠ []) : d.isEmpty = false := by
  cases d with
  | nil => exact absurd rfl he
  | cons a t => rfl

/-- Merging a well-formed, directive-free value against itself is the
identity. -/
theorem merge_self (X : Value) : noMarkers X = true → wfV X = true → merge_value X (some X) = X := by
  induction X using Value.inductionOn with
  | hnull => intro _ _; simp [merge_value, deep_merge_dictionaries, replace_ellipsis_array]
  | hbool b => intro _ _; simp [merge_value, deep_merge_dictionaries, replace_ellipsis_array]
  | hint i => intro _ _; simp [merge_value, deep_merge_dictionaries, replace_ellipsis_array]
  | hreal r => intro _ _; simp [merge_value, deep_merge_dictionaries, replace_ellipsis_array]
  | hstr s => intro _ _; simp [merge_value, deep_merge_dictionaries, replace_ellipsis_array]
  | hdate n => intro _ _; simp [merge_value, deep_merge_dictionaries, replace_ellipsis_array]
  | hdata l => intro _ _; simp [merge_value, deep_merge_dictionaries, replace_ellipsis_array]
  | harr xs ih =>
    intro hn hw
    have hpos := findIdx_none_of_noMarkersArr (by simpa [noMarkers] using hn)
    simp [merge_value, deep_merge_dictionaries, replace_ellipsis_array, hpos]
  | hdict d ih =>
    intro hn hw
    by_cases he : d = []
    · subst he
      simp [merge_value, deep_merge_dictionaries, replace_ellipsis_array]
    · obtain ⟨hb, hell, hvals⟩ := noMarkers_dict_parts hn
      have hw' : keysNodup d = true ∧ wfDict d = true := by
        simpa [wfV, Bool.and_eq_true] using hw
      have hentries : d.map (fun p => (p.1, merge_value p.2 (lookupD d p.1))) = d := by
        have hcongr : ∀ p ∈ d, (p.1, merge_value p.2 (lookupD d p.1)) = id p := by
          intro p hp
          obtain ⟨k, v⟩ := p
          have hl : lookupD d k = some v := lookupD_of_mem_nodup hw'.1 hp
          have hv : merge_value v (some v) = v :=
            ih k v hp (noMarkersDict_mem hvals hp) (wfDict_mem hw'.2 hp)
          simp [hl, hv]
        rw [List.map_congr_left hcongr, List.map_id]
      have hne : d.isEmpty = false := isEmpty_false_of_ne_nil he
      have hmain : deep_merge_dictionaries (.dict d) (some (.dict d)) = .dict d := by
        simp only [deep_merge_dictionaries, hne, Bool.false_eq_true, if_false,
          Option.some_bind, asDictionary]
        rw [mergeEntries_eq_map hell, hentries]
        simp only [hb, Bool.false_eq_true, if_false]
        rw [filter_self_keys_nil]
        simp
      simp [merge_value, hmain, replace_ellipsis_array]

/-- C3 counterexample: a bang key in the new dictionary survives the merge
untouched when the old value is absent, so the merged output that gets
persisted can contain the reserved bang marker. -/
theorem marker_stripping_counterexample :
    merge_value (.dict [(BANG, .string "x")]) none = .dict [(BANG, .string "x")]
    ∧ noMarkers (merge_value (.dict [(BANG, .string "x")]) none) = false := by
  constructor
  · simp [merge_value, deep_merge_dictionaries, replace_ellipsis_array, removeKey, BANG, ELLIPSIS]
  · simp [merge_value, deep_merge_dictionaries, replace_ellipsis_array, removeKey,
      noMarkers, containsKey, BANG, ELLIPSIS]

/-- C3 amended: the merge introduces no markers: whenever neither the new value
tree nor the old value contains an ellipsis array element, an ellipsis
dictionary key, or a bang dictionary key, the merged result contains none
either. In general the markers are not fully stripped: a bang key in the new
tree survives when the corresponding old value is absent or not a dictionary,
and markers present in the old tree can be copied into the output. -/
theorem marker_preservation (new : Value) :
    ∀ old : Option Value, noMarkers new = true → noMarkersO old = true →
      noMarkers (merge_value new old) = true := by
  induction new using Value.inductionOn with
  | hnull => intro old hn ho; simpa [merge_value, deep_merge_dictionaries, replace_ellipsis_array] using hn
  | hbool b => intro old hn ho; simpa [merge_value, deep_merge_dictionaries, replace_ellipsis_array] using hn
  | hint i => intro old hn ho; simpa [merge_value, deep_merge_dictionaries, replace_ellipsis_array] using hn
  | hreal r => intro old hn ho; simpa [merge_value, deep_merge_dictionaries, replace_ellipsis_array] using hn
  | hstr s => intro old hn ho; simpa [merge_value, deep_merge_dictionaries, replace_ellipsis_array] using hn
  | hdate n => intro old hn ho; simpa [merge_value, deep_merge_dictionaries, replace_ellipsis_array] using hn
  | hdata l => intro old hn ho; simpa [merge_value, deep_merge_dictionaries, replace_ellipsis_array] using hn
  | harr xs ih =>
    intro old hn ho
    have hpos := findIdx_none_of_noMarkersArr (by simpa [noMarkers] using hn)
    simpa [merge_value, deep_merge_dictionaries, replace_ellipsis_array, hpos] using hn
  | hdict d ih =>
    intro old hn ho
    by_cases he : d = []
    · subst he
      simpa [merge_value, deep_merge_dictionaries, replace_ellipsis_array] using hn
    · obtain ⟨hb, hell, hvals⟩ := noMarkers_dict_parts hn
      have hne : d.isEmpty = false := isEmpty_false_of_ne_nil he
      cases hod : old.bind asDictionary with
      | none =>
        have hdm : deep_merge_dictionaries (.dict d) old = .dict d := by
          simp only [deep_merge_dictionaries, hne, Bool.false_eq_true, if_false, hod]
          rw [removeKey_of_not_contains hell]
        simpa [merge_value, hdm, replace_ellipsis_array] using hn
      | some od =>
        have hold : old = some (.dict od) := bind_asDictionary_eq_some hod
        have hodn : noMarkers (.dict od) = true := by
          rw [hold] at ho
          simpa [noMarkersO] using ho
        obtain ⟨hob, hoell, hovals⟩ := noMarkers_dict_parts hodn
        have hmb : containsKey (mergeEntries d od) BANG = false := by
          rw [mergeEntries_eq_map hell, containsKey_map]
          exact hb
        have hmell : containsKey (mergeEntries d od) ELLIPSIS = false := by
          rw [mergeEntries_eq_map hell, containsKey_map]
          exact hell
        have hdm : deep_merge_dictionaries (.dict d) old =
            .dict (mergeEntries d od ++ od.filter (fun p => !containsKey (mergeEntries d od) p.1)) := by
          simp only [deep_merge_dictionaries, hne, Bool.false_eq_true, if_false, hod,
            hmb, if_false]
        set extras := od.filter (fun p => !containsKey (mergeEntries d od) p.1) with hextras
        have hxb : containsKey extras BANG = false := containsKey_filter_eq_false _ hob
        have hxell : containsKey extras ELLIPSIS = false := containsKey_filter_eq_false _ hoell
        have hxvals : noMarkersDict extras = true := by
          rw [noMarkersDict_iff]
          intro p hp
          exact noMarkersDict_iff.mp hovals p (List.mem_of_mem_filter hp)
        have hmvals : noMarkersDict (mergeEntries d od) = true := by
          rw [mergeEntries_eq_map hell, noMarkersDict_iff]
          intro p hp
          obtain ⟨q, hq, hpq⟩ := List.mem_map.mp hp
          obtain ⟨k, v⟩ := q
          have hv : noMarkers v = true := noMarkersDict_mem hvals hq
          have hvold : noMarkersO (lookupD od k) = true := by
            cases hlk : lookupD od k with
            | none => simp [noMarkersO]
            | some w =>
              have : noMarkers w = true := noMarkersDict_mem hovals (lookupD_mem hlk)
              simpa [noMarkersO] using this
          have := ih k v hq (lookupD od k) hv hvold
          rw [← hpq]
          simpa using this
        have hfinal : noMarkers (.dict (mergeEntries d od ++ extras)) = true := by
          simp only [noMarkers, Bool.and_eq_true, Bool.not_eq_true', containsKey_append]
          refine ⟨⟨?_, ?_⟩, ?_⟩
          · simp [hmb, hxb]
          · simp [hmell, hxell]
          · rw [noMarkersDict_iff]
            intro p hp
            rcases List.mem_append.mp hp with hp1 | hp1
            · exact noMarkersDict_iff.mp hmvals p hp1
            · exact noMarkersDict_iff.mp hxvals p hp1
        simpa [merge_value, hdm, replace_ellipsis_array] using hfinal

/-- Witness for the amended C3 theorem at a concrete marker-free input. -/
theorem marker_preservation_witness :
    noMarkers (merge_value (.dict [("a", .integer 1)]) (some (.dict [("b", .integer 2)]))) = true :=
  marker_preservation (.dict [("a", .integer 1)]) (some (.dict [("b", .integer 2)]))
    (by simp [noMarkers, noMarkersDict, containsKey, BANG, ELLIPSIS])
    (by simp [noMarkersO, noMarkers, noMarkersDict, containsKey, BANG, ELLIPSIS])

/-- The per-entry merge loop only looks at the old dictionary through lookups
of the keys of the new dictionary. -/
theorem mergeEntries_ext {d od1 od2 : List (String × Value)}
    (h : ∀ k v, (k, v) ∈ d → k ≠ ELLIPSIS → merge_value v (lookupD od1 k) = merge_value v (lookupD od2 k)) :
    mergeEntries d od1 = mergeEntries d od2 := by
  induction d with
  | nil => simp [mergeEntries]
  | cons p rest ih =>
    obtain ⟨k, v⟩ := p
    simp only [mergeEntries]
    by_cases hk : k = ELLIPSIS
    · rw [if_pos hk, if_pos hk]
      exact ih (fun k' v' hm hk' => h k' v' (List.mem_cons_of_mem _ hm) hk')
    · rw [if_neg hk, if_neg hk, h k v (List.mem_cons_self _ _) hk,
        ih (fun k' v' hm hk' => h k' v' (List.mem_cons_of_mem _ hm) hk')]

/-- Looking up a new-dictionary key in the merged entry list yields the merge
of its value against the old entry of the same key. -/
theorem lookupD_mergeEntries {d od : List (String × Value)} {k : String} {v : Value}
    (hnd : keysNodup d = true) (hell : containsKey d ELLIPSIS = false) (hm : (k, v) ∈ d) :
    lookupD (mergeEntries d od) k = some (merge_value v (lookupD od k)) := by
  rw [mergeEntries_eq_map hell]
  exact lookupD_map_of_mem_nodup _ hnd hm

/-- C4 counterexample: merge is not idempotent: for a new dictionary holding
only a bang entry and an absent old value, the first merge keeps the bang key
(the old value is not a dictionary, so the merge stops before bang handling)
and the second merge then deletes it, so applying the same document twice
changes the value twice. -/
theorem merge_idempotence_counterexample :
    merge_value (.dict [(BANG, .string "")]) (some (merge_value (.dict [(BANG, .string "")]) none))
      ≠ merge_value (.dict [(BANG, .string "")]) none := by
  simp [merge_value, deep_merge_dictionaries, mergeEntries, replace_ellipsis_array,
    removeKey, containsKey, lookupD, asDictionary, BANG, ELLIPSIS]

/-- C4 amended: merge is idempotent on directive-free new trees: when the new
value is well-formed and contains no bang keys, no ellipsis dictionary keys,
and no ellipsis array elements anywhere, merging it against its own merged
result with any old value reproduces that result exactly. With directives
present a second application can differ, e.g. when a bang key survived the
first merge because the old value was absent or not a dictionary. -/
theorem merge_idempotent_of_noMarkers (N : Value) :
    ∀ O : Option Value, noMarkers N = true → wfV N = true →
      merge_value N (some (merge_value N O)) = merge_value N O := by
  induction N using Value.inductionOn with
  | hnull => intro O hn hw; simp [merge_value, deep_merge_dictionaries, replace_ellipsis_array]
  | hbool b => intro O hn hw; simp [merge_value, deep_merge_dictionaries, replace_ellipsis_array]
  | hint i => intro O hn hw; simp [merge_value, deep_merge_dictionaries, replace_ellipsis_array]
  | hreal r => intro O hn hw; simp [merge_value, deep_merge_dictionaries, replace_ellipsis_array]
  | hstr s => intro O hn hw; simp [merge_value, deep_merge_dictionaries, replace_ellipsis_array]
  | hdate n => intro O hn hw; simp [merge_value, deep_merge_dictionaries, replace_ellipsis_array]
  | hdata l => intro O hn hw; simp [merge_value, deep_merge_dictionaries, replace_ellipsis_array]
  | harr xs ih =>
    intro O hn hw
    have hpos := findIdx_none_of_noMarkersArr (by simpa [noMarkers] using hn)
    simp [merge_value, deep_merge_dictionaries, replace_ellipsis_array, hpos]
  | hdict d ih =>
    intro O hn hw
    by_cases he : d = []
    · subst he
      simp [merge_value, deep_merge_dictionaries, replace_ellipsis_array]
    · obtain ⟨hb, hell, hvals⟩ := noMarkers_dict_parts hn
      have hw' : keysNodup d = true ∧ wfDict d = true := by
        simpa [wfV, Bool.and_eq_true] using hw
      have hne : d.isEmpty = false := isEmpty_false_of_ne_nil he
      cases hod : O.bind asDictionary with
      | none =>
        have hdm : deep_merge_dictionaries (.dict d) O = .dict d := by
          simp only [deep_merge_dictionaries, hne, Bool.false_eq_true, if_false, hod]
          rw [removeKey_of_not_contains hell]
        have hM : merge_value (.dict d) O = .dict d := by
          simp [merge_value, hdm, replace_ellipsis_array]
        rw [hM]
        exact merge_self (.dict d) hn hw
      | some od =>
        have hmb : containsKey (mergeEntries d od) BANG = false := by
          rw [mergeEntries_eq_map hell, containsKey_map]
          exact hb
        have hdm : deep_merge_dictionaries (.dict d) O =
            .dict (mergeEntries d od ++ od.filter (fun p => !containsKey (mergeEntries d od) p.1)) := by
          simp only [deep_merge_dictionaries, hne, Bool.false_eq_true, if_false, hod, hmb]
        have hM : merge_value (.dict d) O =
            .dict (mergeEntries d od ++ od.filter (fun p => !containsKey (mergeEntries d od) p.1)) := by
          simp [merge_value, hdm, replace_ellipsis_array]
        rw [hM]
        have hstep : mergeEntries d (mergeEntries d od ++ od.filter (fun p => !containsKey (mergeEntries d od) p.1))
            = mergeEntries d od := by
          apply mergeEntries_ext
          intro k v hm hk
          have hlm := @lookupD_mergeEntries d od k v hw'.1 hell hm
          have hla := @lookupD_append_some _
            (od.filter (fun p => !containsKey (mergeEntries d od) p.1)) _ _ hlm
          rw [hla]
          exact ih k v hm (lookupD od k) (noMarkersDict_mem hvals hm) (wfDict_mem hw'.2 hm)
        have hmb2 : containsKey (mergeEntries d (mergeEntries d od ++ od.filter (fun p => !containsKey (mergeEntries d od) p.1))) BANG = false := by
          rw [hstep]
          exact hmb
        have hfilter : (mergeEntries d od ++ od.filter (fun p => !containsKey (mergeEntries d od) p.1)).filter
              (fun p => !containsKey (mergeEntries d (mergeEntries d od ++ od.filter (fun p => !containsKey (mergeEntries d od) p.1))) p.1)
            = od.filter (fun p => !containsKey (mergeEntries d od) p.1) := by
          rw [hstep, List.filter_append, filter_self_keys_nil, List.nil_append, List.filter_filter]
          simp
        have hdm2 : deep_merge_dictionaries (.dict d)
              (some (.dict (mergeEntries d od ++ od.filter (fun p => !containsKey (mergeEntries d od) p.1))))
            = .dict (mergeEntries d od ++ od.filter (fun p => !containsKey (mergeEntries d od) p.1)) := by
          simp only [deep_merge_dictionaries, hne, Bool.false_eq_true, if_false,
            Option.some_bind, asDictionary, hmb2]
          rw [hfilter, hstep]
        simp [merge_value, hdm2, replace_ellipsis_array]

/-- Witness for the amended C4 theorem at a concrete marker-free input. -/
theorem merge_idempotent_of_noMarkers_witness :
    merge_value (.dict [("a", .integer 1)])
        (some (merge_value (.dict [("a", .integer 1)]) (some (.dict [("b", .integer 2)]))))
      = merge_value (.dict [("a", .integer 1)]) (some (.dict [("b", .integer 2)])) :=
  merge_idempotent_of_noMarkers (.dict [("a", .integer 1)]) (some (.dict [("b", .integer 2)]))
    (by simp [noMarkers, noMarkersDict, containsKey, BANG, ELLIPSIS])
    (by simp [wfV, wfDict, keysNodup, containsKey])

end MacosDefaults
